import Mathlib

/-!
Verification of the global-assembly and static-condensation linear solver
core of the Nektar spectral/hp element library, against its specification.

The embedding works over exact rationals (`ℚ`) in place of IEEE doubles:
all claims under study are exact algebraic or control-flow properties, so
the field structure is what matters.  Local matrices are embedded as
Mathlib matrices over `Fin`-indexed types; loops become structural
recursions or folds; fatal assertions become `Except.error`.
-/

namespace Nektar

/-- The `StdRegions::MatrixType` values relevant to the assembly routines
(`ExpList::GenGlobalMatrix` / `GenGlobalMatrixFull` switch on these). -/
inductive MatrixType where
  | eMass
  | eLaplacian
  | eHelmholtz
  | eBwdTrans
  | eIProductWRTBase
  | eOther
  deriving DecidableEq

/-- Explicit nonsingular-inverse formula: `D->Invert()` of a dense local
matrix, embedded as `det⁻¹ • adjugate` (equal to Mathlib's `D⁻¹`). -/
def matInv {m : ℕ} (D : Matrix (Fin m) (Fin m) ℚ) : Matrix (Fin m) (Fin m) ℚ :=
  D.det⁻¹ • D.adjugate

/-- Boundary-boundary gather of the full local operator matrix:
`A(i,j) = mat(bmap[i], bmap[j])` (`TetExp::CreateStaticCondMatrix`). -/
def gatherA {nbdry : ℕ} (mat : ℕ → ℕ → ℚ) (bmap : Fin nbdry → ℕ) :
    Matrix (Fin nbdry) (Fin nbdry) ℚ :=
  Matrix.of fun i j => mat (bmap i) (bmap j)

/-- Boundary-interior gather: `B(i,j) = mat(bmap[i], imap[j])`. -/
def gatherB {nbdry nint : ℕ} (mat : ℕ → ℕ → ℚ) (bmap : Fin nbdry → ℕ)
    (imap : Fin nint → ℕ) : Matrix (Fin nbdry) (Fin nint) ℚ :=
  Matrix.of fun i j => mat (bmap i) (imap j)

/-- Interior-boundary gather: `C(i,j) = mat(imap[i], bmap[j])`. -/
def gatherC {nbdry nint : ℕ} (mat : ℕ → ℕ → ℚ) (bmap : Fin nbdry → ℕ)
    (imap : Fin nint → ℕ) : Matrix (Fin nint) (Fin nbdry) ℚ :=
  Matrix.of fun i j => mat (imap i) (bmap j)

/-- Interior-interior gather: `D(i,j) = mat(imap[i], imap[j])`. -/
def gatherD {nint : ℕ} (mat : ℕ → ℕ → ℚ) (imap : Fin nint → ℕ) :
    Matrix (Fin nint) (Fin nint) ℚ :=
  Matrix.of fun i j => mat (imap i) (imap j)

/-- The 2x2 block structure returned by `CreateStaticCondMatrix`.  Each
block already carries its `DNekScalMat` scale factor multiplied in. -/
structure StaticCondBlocks (nbdry nint : ℕ) where
  block00 : Matrix (Fin nbdry) (Fin nbdry) ℚ
  block01 : Matrix (Fin nbdry) (Fin nint) ℚ
  block10 : Matrix (Fin nint) (Fin nbdry) ℚ
  block11 : Matrix (Fin nint) (Fin nint) ℚ

/-- `TetExp::CreateStaticCondMatrix`, `UseLocRegionsMatrix` branch
(TetExp.cpp:1418-1475).  The branch is reached with `factor = 1.0` for
`eLaplacian`/`eHelmholtz` (and for deformed geometry); we keep `factor`
as a parameter, mirroring the source's scale handling.  Gather A,B,C,D
by indexing with the boundary and interior maps; when `nint > 0`, invert
D in place, overwrite `B := B * D⁻¹`, then `A := A - B*C` (with the
already-updated B), and emit the four blocks scaled by
`(factor, 1, factor, 1/factor)` exactly as the four `SetBlock` calls do;
when `nint = 0` the inversion step is skipped and the gathered blocks
are emitted unchanged. -/
def CreateStaticCondMatrix {nbdry nint : ℕ} (factor : ℚ) (mat : ℕ → ℕ → ℚ)
    (bmap : Fin nbdry → ℕ) (imap : Fin nint → ℕ) : StaticCondBlocks nbdry nint :=
  let invfactor := 1 / factor
  let A := gatherA mat bmap
  let B := gatherB mat bmap imap
  let C := gatherC mat bmap imap
  let D := gatherD mat imap
  if 0 < nint then
    let Dinv := matInv D
    let B1 := B * Dinv
    let A1 := A - B1 * C
    ⟨factor • A1, B1, factor • C, invfactor • Dinv⟩
  else
    ⟨factor • A, B, factor • C, invfactor • D⟩

/-! ### Scatter-add assembly into a sparse COO map
(`ExpList::GenGlobalMatrix`, ExpList.cpp:866-935). -/

/-- One element's local matrix as seen by the assembly loop: its row and
column counts and its (dense, scale-applied) entries. -/
structure LocalExp where
  rows : ℕ
  cols : ℕ
  mat : ℕ → ℕ → ℚ

/-- The `std::map< pair<int,int>, NekDouble > spcoomat` sparse matrix,
read totally with absent entries denoting zero. -/
abbrev COOMat := ℕ × ℕ → ℚ

/-- One scatter-add into the COO map.  The source distinguishes the
first write (`spcoomat[coord] = v`) from later ones
(`spcoomat[coord] += v`); with absent entries read as zero the two
branches coincide. -/
def cooAdd (acc : COOMat) (g1 g2 : ℕ) (v : ℚ) : COOMat :=
  fun p => if p = (g1, g2) then acc p + v else acc p

/-- The inner double loop of `GenGlobalMatrix` for one element:
`gid1 = map(cntdim1+i)`, `gid2 = map(cntdim2+j)`, and the contribution
`sign1*sign2*loc_mat(i,j)` is accumulated at `(gid1, gid2)` (the case
with both dimensions assembled, as selected for eMass / eHelmholtz /
eLaplacian). -/
def fillElemCOO (lgm : ℕ → ℕ) (lgs : ℕ → ℚ) (cnt1 cnt2 : ℕ) (e : LocalExp)
    (acc : COOMat) : COOMat :=
  (List.range e.rows).foldl (fun a1 i =>
    (List.range e.cols).foldl (fun a2 j =>
      cooAdd a2 (lgm (cnt1 + i)) (lgm (cnt2 + j))
        (lgs (cnt1 + i) * lgs (cnt2 + j) * e.mat i j)) a1) acc

/-- The outer element loop of `GenGlobalMatrix`, threading the running
offsets `cntdim1 += loc_rows`, `cntdim2 += loc_cols`. -/
def fillCOO (lgm : ℕ → ℕ) (lgs : ℕ → ℚ) :
    ℕ → ℕ → List LocalExp → COOMat → COOMat
  | _, _, [], acc => acc
  | cnt1, cnt2, e :: es, acc =>
      fillCOO lgm lgs (cnt1 + e.rows) (cnt2 + e.cols) es
        (fillElemCOO lgm lgs cnt1 cnt2 e acc)

/-- `ExpList::GenGlobalMatrix`: assemble all elements' local matrices
into the sparse global COO map, starting from the empty map. -/
def GenGlobalMatrix (lgm : ℕ → ℕ) (lgs : ℕ → ℚ) (elems : List LocalExp) :
    COOMat :=
  fillCOO lgm lgs 0 0 elems (fun _ => 0)

/-- Specification-side list of one element's contributions: the triple
`(map[e][i], map[e][j], sign[e][i]*sign[e][j]*S_e[i][j])` for every
local pair `(i,j)`. -/
def elemContribs (lgm : ℕ → ℕ) (lgs : ℕ → ℚ) (cnt1 cnt2 : ℕ) (e : LocalExp) :
    List (ℕ × ℕ × ℚ) :=
  (List.range e.rows).flatMap fun i =>
    (List.range e.cols).map fun j =>
      (lgm (cnt1 + i), lgm (cnt2 + j),
        lgs (cnt1 + i) * lgs (cnt2 + j) * e.mat i j)

/-- Specification-side list of all elements' contributions, in assembly
order, with the same running offsets as `fillCOO`. -/
def allContribs (lgm : ℕ → ℕ) (lgs : ℕ → ℚ) :
    ℕ → ℕ → List LocalExp → List (ℕ × ℕ × ℚ)
  | _, _, [] => []
  | cnt1, cnt2, e :: es =>
      elemContribs lgm lgs cnt1 cnt2 e
        ++ allContribs lgm lgs (cnt1 + e.rows) (cnt2 + e.cols) es

/-- Replay a contribution list into the COO map by scatter-adds. -/
def applyContribs (l : List (ℕ × ℕ × ℚ)) (acc : COOMat) : COOMat :=
  l.foldl (fun a t => cooAdd a t.1 t.2.1 t.2.2) acc

/-- The total contribution a list of triples makes to one coordinate. -/
def sumContribsAt (l : List (ℕ × ℕ × ℚ)) (p : ℕ × ℕ) : ℚ :=
  ((l.filter fun t => decide (t.1 = p.1 ∧ t.2.1 = p.2)).map fun t => t.2.2).sum

/-! ### Dense global assembly over the free DOFs
(`ExpList::GenGlobalMatrixFull`, ExpList.cpp:1023-1132). -/

/-- The `MatrixStorage` values chosen by `GenGlobalMatrixFull`. -/
inductive MatrixStorage where
  | ePOSITIVE_DEFINITE_SYMMETRIC_BANDED
  | ePOSITIVE_DEFINITE_SYMMETRIC
  | eFULL
  deriving DecidableEq

/-- The storage-policy switch at the head of `GenGlobalMatrixFull`:
symmetric operators (`eHelmholtz`, `eLaplacian`) get banded symmetric
storage when `2*(bwidth+1) < rows` and full symmetric storage
otherwise; every other operator kind gets general full storage. -/
def chooseStorage (mtype : MatrixType) (bwidth rows : ℕ) : MatrixStorage :=
  match mtype with
  | .eHelmholtz | .eLaplacian =>
      if 2 * (bwidth + 1) < rows then .ePOSITIVE_DEFINITE_SYMMETRIC_BANDED
      else .ePOSITIVE_DEFINITE_SYMMETRIC
  | _ => .eFULL

/-- Modelled from the spec: the element access of `DNekMat` under the
chosen storage (the `MatrixStoragePolicy` classes are not under src/).
Full storage addresses `(i,j)` directly; the two symmetric storages keep
one copy of each unordered pair, canonically the upper-triangular slot
`(min i j, max i j)`, so reads of `(i,j)` and `(j,i)` alias. -/
def GetValue (storage : MatrixStorage) (store : ℕ → ℕ → ℚ) (i j : ℕ) : ℚ :=
  match storage with
  | .eFULL => store i j
  | _ => store (min i j) (max i j)

/-- Modelled from the spec: `DNekMat::SetValue` under the chosen
storage, writing the canonical slot (see `GetValue`). -/
def SetValue (storage : MatrixStorage) (store : ℕ → ℕ → ℚ) (i j : ℕ) (v : ℚ) :
    ℕ → ℕ → ℚ :=
  match storage with
  | .eFULL => fun a b => if (a, b) = (i, j) then v else store a b
  | _ => fun a b => if (a, b) = (min i j, max i j) then v else store a b

/-- One element as seen by `GenGlobalMatrixFull`: its coefficient count
(`loc_lda`) and square local operator matrix. -/
structure LocalExpFull where
  ncoeffs : ℕ
  mat : ℕ → ℕ → ℚ

/-- The fill loop of `GenGlobalMatrixFull` for one element:
`gid1 = map(cnt+i) - NumDirBCs` is used only when nonnegative (Dirichlet
rows excluded), likewise `gid2`; under symmetric storage only the upper
triangle `gid2 >= gid1` is accumulated, to avoid entering entries twice;
the contribution is `sign1*sign2*loc_mat(i,j)`. -/
def fillElemFull (storage : MatrixStorage) (lgm : ℕ → ℕ) (lgs : ℕ → ℚ)
    (ndir cnt : ℕ) (e : LocalExpFull) (store : ℕ → ℕ → ℚ) : ℕ → ℕ → ℚ :=
  (List.range e.ncoeffs).foldl (fun st1 i =>
    if ndir ≤ lgm (cnt + i) then
      (List.range e.ncoeffs).foldl (fun st2 j =>
        if ndir ≤ lgm (cnt + j) then
          if storage = .eFULL ∨ lgm (cnt + i) - ndir ≤ lgm (cnt + j) - ndir then
            SetValue storage st2 (lgm (cnt + i) - ndir) (lgm (cnt + j) - ndir)
              (GetValue storage st2 (lgm (cnt + i) - ndir) (lgm (cnt + j) - ndir)
                + lgs (cnt + i) * lgs (cnt + j) * e.mat i j)
          else st2
        else st2) st1
    else st1) store

/-- The outer element loop of `GenGlobalMatrixFull`, threading
`cnt += GetNcoeffs()`. -/
def fillFull (storage : MatrixStorage) (lgm : ℕ → ℕ) (lgs : ℕ → ℚ) (ndir : ℕ) :
    ℕ → List LocalExpFull → (ℕ → ℕ → ℚ) → (ℕ → ℕ → ℚ)
  | _, [], store => store
  | cnt, e :: es, store =>
      fillFull storage lgm lgs ndir (cnt + e.ncoeffs) es
        (fillElemFull storage lgm lgs ndir cnt e store)

/-- The assembled global matrix object: its dimensions, storage kind and
stored entries. -/
structure DNekMatGlobal where
  rows : ℕ
  cols : ℕ
  storage : MatrixStorage
  store : ℕ → ℕ → ℚ

/-- `ExpList::GenGlobalMatrixFull`: allocate a
`(totDofs - NumDirBCs) x (totDofs - NumDirBCs)` zero matrix in the
storage chosen for the operator kind, then run the assembly fill. -/
def GenGlobalMatrixFull (mtype : MatrixType) (lgm : ℕ → ℕ) (lgs : ℕ → ℚ)
    (totDofs ndir bwidth : ℕ) (elems : List LocalExpFull) : DNekMatGlobal :=
  let rows := totDofs - ndir
  let storage := chooseStorage mtype bwidth rows
  { rows := rows, cols := rows, storage := storage,
    store := fillFull storage lgm lgs ndir 0 elems (fun _ _ => 0) }

/-- Mathematical entry read of the assembled matrix, through its
storage. -/
def DNekMatGlobal.entry (G : DNekMatGlobal) (i j : ℕ) : ℚ :=
  GetValue G.storage G.store i j

/-- Two element lists have the same layout and agree on every local
entry whose row and column both map to free (non-Dirichlet) global
DOFs; entries with a Dirichlet row or column may differ arbitrarily. -/
def AgreesOnFree (lgm : ℕ → ℕ) (ndir : ℕ) :
    ℕ → List LocalExpFull → List LocalExpFull → Prop
  | _, [], [] => True
  | cnt, e :: es, f :: fs =>
      e.ncoeffs = f.ncoeffs
      ∧ (∀ i j, ndir ≤ lgm (cnt + i) → ndir ≤ lgm (cnt + j) →
          e.mat i j = f.mat i j)
      ∧ AgreesOnFree lgm ndir (cnt + e.ncoeffs) es fs
  | _, _, _ => False

/-! ### Preconditioned conjugate-gradient solver
(`GlobalLinSysIterative::v_SolveLinearSystem`,
GlobalLinSysIterative.cpp:74-202). -/

/-- Modelled from the spec: the distributed dot products
(`Vmath::Dot2` / `VDmath::Ddot2` over the universal map, combined by an
`AllReduce` sum; the Vmath sources are not under src/).  In the serial
model every entry is owned by this process, so the reduction is the
plain dot product. -/
def wdot {n : ℕ} (x y : Fin n → ℚ) : ℚ := ∑ i, x i * y i

/-- Modelled from the spec: `NekConstants::kNekZeroTol`, the
numerically-zero threshold applied to the squared initial residual
(NekConstants is not under src/; the representative value 1.0e-12 is
used — no claim depends on the particular value). -/
def kNekZeroTol : ℚ := 1 / 10 ^ 12

/-- Modelled from the spec: the square of
`NekConstants::kNekIterativeTol` (value 1.0e-09, not under src/).  The
source tests `sqrt(normsq) < kNekIterativeTol`; over nonnegative values
this is equivalent to `normsq < kNekIterativeTol^2`, which is how the
test is embedded (exact rationals have no square root). -/
def kNekIterativeTolSq : ℚ := 1 / 10 ^ 18

/-- The fatal diagnostic of the iteration cap (`ASSERTL1`). -/
def capMsg : String := "Exceeded maximum number of iterations (20000)"

/-- The live variables of the conjugate-gradient loop: the solution
accumulator wrapping `pOutput`, the residual `r`, the preconditioned
residual `z`, the search direction `d`, and the iteration counter `k`. -/
structure CGState (n : ℕ) where
  out : Fin n → ℚ
  r : Fin n → ℚ
  z : Fin n → ℚ
  d : Fin n → ℚ
  k : ℕ

/-- The `while(true)` conjugate-gradient loop of
`GlobalLinSysIterative::v_SolveLinearSystem`
(GlobalLinSysIterative.cpp:129-201).  `Amul` is the subclass-provided
`v_DoMatrixMultiply`; `M` is the inverse preconditioner matrix.  Each
pass computes `p = A*d`, the reduced dot products, the step length
`alpha = (z·r)/(d·p)`, the solution update `out += alpha*d`, the new
residual `r_new = r - alpha*p` and its preconditioning
`z_new = M*r_new`, then `beta` and the squared residual norm; it
returns the updated solution once the residual passes the tolerance
test, and otherwise advances `d = z_new + beta*d`, shifts
`r = r_new`, `z = z_new`, increments `k`, and fails fatally
(`ASSERTL1(k < 20000, ...)`, modelled from the spec as a hard error —
the ErrorUtil macros are not under src/) once the counter reaches the
cap.  `fuel` only makes the recursion structural; callers supply
`fuel > 20000 - k`, making the fuel branch unreachable.  The result
pairs the returned solution with the squared residual norm at exit. -/
def cgLoop {n : ℕ} (Amul : (Fin n → ℚ) → Fin n → ℚ)
    (M : Matrix (Fin n) (Fin n) ℚ) :
    ℕ → CGState n → Except String ((Fin n → ℚ) × ℚ)
  | 0, _ => .error "fuel exhausted"
  | fuel + 1, s =>
      let p := Amul s.d
      let alphaDen := wdot s.d p
      let alphaNum := wdot s.z s.r
      let betaDen := wdot s.r s.z
      let alpha := alphaNum / alphaDen
      let out1 := fun i => s.out i + alpha * s.d i
      let rNew := fun i => s.r i - alpha * p i
      let zNew := M.mulVec rNew
      let beta := wdot rNew zNew / betaDen
      let normsq := wdot rNew rNew
      if normsq < kNekIterativeTolSq then .ok (out1, normsq)
      else if s.k + 1 < 20000 then
        cgLoop Amul M fuel
          ⟨out1, rNew, zNew, fun i => zNew i + beta * s.d i, s.k + 1⟩
      else .error capMsg

/-- `GlobalLinSysIterative::v_SolveLinearSystem` over the non-Dirichlet
DOFs: initialize `r = input`, `z = M*r`, `d = z`, `k = 0`; if the
initial squared residual is numerically zero, explicitly zero the
output and return; otherwise run the conjugate-gradient loop starting
from the caller-supplied contents of the output array (the code never
writes an initial guess into `out` before the loop). -/
def v_SolveLinearSystem {n : ℕ} (Amul : (Fin n → ℚ) → Fin n → ℚ)
    (M : Matrix (Fin n) (Fin n) ℚ) (pInput pOutput : Fin n → ℚ) :
    Except String (Fin n → ℚ) :=
  let r := pInput
  let z := M.mulVec r
  let d := z
  if wdot r r < kNekZeroTol then .ok (fun _ => 0)
  else (cgLoop Amul M 20001 ⟨pOutput, r, z, d, 0⟩).map Prod.fst

/-! ### Coupled velocity-pressure block sizes
(`CoupledLinearNS::SetUpCoupledMatrix`, CoupledLinearNS.cpp:374-399). -/

/-- `nz_loc` in `CoupledLinearNS::SetUpCoupledMatrix`: two local
z-planes when a homogeneous Fourier mode (or the single-mode flag) is
active, one otherwise. -/
def nzLoc (HomogeneousMode : ℕ) (singleMode : Bool) : ℕ :=
  if HomogeneousMode ≠ 0 then 2 else if singleMode then 2 else 1

/-- The per-element block-size arrays of the coupled solver. -/
structure CoupledSizes where
  nsize_bndry : ℕ → ℕ
  nsize_bndry_p1 : ℕ → ℕ
  nsize_int : ℕ → ℕ
  nsize_p : ℕ → ℕ
  nsize_p_m1 : ℕ → ℕ

/-- The block-size setup loop of `CoupledLinearNS::SetUpCoupledMatrix`
(CoupledLinearNS.cpp:390-399): per element `n`,
`nsize_bndry = nvel*NumBndryCoeffs*nz_loc`,
`nsize_bndry_p1 = nsize_bndry + nz_loc`,
`nsize_int = nvel*GetNcoeffs*nz_loc - nsize_bndry`,
`nsize_p = pressure GetNcoeffs * nz_loc`,
`nsize_p_m1 = nsize_p - nz_loc` (unsigned arithmetic; the per-element
coefficient counts are positive, so no underflow occurs). -/
def SetUpCoupledMatrixSizes (nvel nz : ℕ)
    (numBndryCoeffs numCoeffs numCoeffsP : ℕ → ℕ) : CoupledSizes where
  nsize_bndry n := nvel * numBndryCoeffs n * nz
  nsize_bndry_p1 n := nvel * numBndryCoeffs n * nz + nz
  nsize_int n := nvel * numCoeffs n * nz - nvel * numBndryCoeffs n * nz
  nsize_p n := numCoeffsP n * nz
  nsize_p_m1 n := numCoeffsP n * nz - nz

end Nektar

namespace Nektar

theorem matInv_eq_inv {m : ℕ} (D : Matrix (Fin m) (Fin m) ℚ) : matInv D = D⁻¹ := by
  rw [Matrix.inv_def, Ring.inverse_eq_inv, matInv]

/-- C1: with `nint > 0` and invertible interior block `D`, static
condensation returns blocks `(A - B·D⁻¹·C, B·D⁻¹, C, D⁻¹)`, where
`A`,`B`,`C`,`D` are gathered from the full local matrix by `boundaryMap`
and `interiorMap` indexing (`factor = 1`, as set for the
Laplacian/Helmholtz operators). -/
theorem createStaticCondMatrix_blocks {nbdry nint : ℕ} (mat : ℕ → ℕ → ℚ)
    (bmap : Fin nbdry → ℕ) (imap : Fin nint → ℕ)
    (hint : 0 < nint) (hD : (gatherD mat imap).det ≠ 0) :
    (CreateStaticCondMatrix 1 mat bmap imap).block00
        = gatherA mat bmap
          - gatherB mat bmap imap * (gatherD mat imap)⁻¹ * gatherC mat bmap imap
    ∧ (CreateStaticCondMatrix 1 mat bmap imap).block01
        = gatherB mat bmap imap * (gatherD mat imap)⁻¹
    ∧ (CreateStaticCondMatrix 1 mat bmap imap).block10 = gatherC mat bmap imap
    ∧ (CreateStaticCondMatrix 1 mat bmap imap).block11 = (gatherD mat imap)⁻¹ := by
  simp only [CreateStaticCondMatrix, if_pos hint, matInv_eq_inv, one_smul]
  norm_num

/-- Witness for C1 on a concrete 2x2 local matrix with one boundary and
one interior mode. -/
theorem createStaticCondMatrix_blocks_witness :
    (0 < 1 ∧
      (gatherD (fun i j => if i = 0 ∧ j = 0 then 4 else
          if i = 0 ∧ j = 1 then 2 else if i = 1 ∧ j = 0 then 1 else 3)
        (fun _ : Fin 1 => 1)).det ≠ 0) ∧
    (CreateStaticCondMatrix 1
        (fun i j => if i = 0 ∧ j = 0 then 4 else
          if i = 0 ∧ j = 1 then 2 else if i = 1 ∧ j = 0 then 1 else 3)
        (fun _ : Fin 1 => 0) (fun _ : Fin 1 => 1)).block10
      = gatherC (fun i j => if i = 0 ∧ j = 0 then 4 else
          if i = 0 ∧ j = 1 then 2 else if i = 1 ∧ j = 0 then 1 else 3)
        (fun _ : Fin 1 => 0) (fun _ : Fin 1 => 1) := by
  have hdet : (gatherD (fun i j : ℕ => if i = 0 ∧ j = 0 then 4 else
      if i = 0 ∧ j = 1 then 2 else if i = 1 ∧ j = 0 then (1 : ℚ) else 3)
      (fun _ : Fin 1 => 1)).det ≠ 0 := by
    rw [Matrix.det_fin_one]
    norm_num [gatherD]
  exact ⟨⟨Nat.one_pos, hdet⟩,
    (createStaticCondMatrix_blocks _ _ _ Nat.one_pos hdet).2.2.1⟩

/-- C9: with zero interior modes the condensation skips the inversion
and Schur step and returns the gathered boundary block `A` unchanged as
block (0,0), with the (empty) `B`, `C`, `D` blocks passed through
untouched. -/
theorem createStaticCondMatrix_nint_zero {nbdry : ℕ} (mat : ℕ → ℕ → ℚ)
    (bmap : Fin nbdry → ℕ) (imap : Fin 0 → ℕ) :
    (CreateStaticCondMatrix 1 mat bmap imap).block00 = gatherA mat bmap
    ∧ (CreateStaticCondMatrix 1 mat bmap imap).block01 = gatherB mat bmap imap
    ∧ (CreateStaticCondMatrix 1 mat bmap imap).block10 = gatherC mat bmap imap
    ∧ (CreateStaticCondMatrix 1 mat bmap imap).block11 = gatherD mat imap := by
  simp only [CreateStaticCondMatrix, lt_irrefl, if_false, one_smul]
  norm_num

theorem cooAdd_apply (acc : COOMat) (g1 g2 : ℕ) (v : ℚ) (p : ℕ × ℕ) :
    cooAdd acc g1 g2 v p = acc p + if p = (g1, g2) then v else 0 := by
  unfold cooAdd
  by_cases h : p = (g1, g2) <;> simp [h]

theorem applyContribs_apply (l : List (ℕ × ℕ × ℚ)) (acc : COOMat) (p : ℕ × ℕ) :
    applyContribs l acc p = acc p + sumContribsAt l p := by
  obtain ⟨p1, p2⟩ := p
  induction l generalizing acc with
  | nil => simp [applyContribs, sumContribsAt]
  | cons t ts ih =>
      simp only [applyContribs, List.foldl_cons] at *
      rw [ih, cooAdd_apply]
      by_cases h : t.1 = p1 ∧ t.2.1 = p2
      · obtain ⟨h1, h2⟩ := h
        subst h1
        subst h2
        simp [sumContribsAt, add_assoc, add_left_comm]
      · have hp : (p1, p2) ≠ (t.1, t.2.1) := by
          intro hc
          apply h
          exact ⟨(congrArg Prod.fst hc).symm, (congrArg Prod.snd hc).symm⟩
        simp [sumContribsAt, h, hp]

theorem applyContribs_append (l1 l2 : List (ℕ × ℕ × ℚ)) (acc : COOMat) :
    applyContribs (l1 ++ l2) acc = applyContribs l2 (applyContribs l1 acc) := by
  simp [applyContribs, List.foldl_append]

theorem fillElemCOO_eq_applyContribs (lgm : ℕ → ℕ) (lgs : ℕ → ℚ)
    (cnt1 cnt2 : ℕ) (e : LocalExp) (acc : COOMat) :
    fillElemCOO lgm lgs cnt1 cnt2 e acc
      = applyContribs (elemContribs lgm lgs cnt1 cnt2 e) acc := by
  unfold fillElemCOO elemContribs applyContribs
  induction (List.range e.rows) generalizing acc with
  | nil => simp
  | cons i is ih =>
      simp only [List.foldl_cons, List.flatMap_cons, List.foldl_append, List.foldl_map]
      rw [ih]

theorem fillCOO_eq_applyContribs (lgm : ℕ → ℕ) (lgs : ℕ → ℚ)
    (elems : List LocalExp) :
    ∀ (cnt1 cnt2 : ℕ) (acc : COOMat),
      fillCOO lgm lgs cnt1 cnt2 elems acc
        = applyContribs (allContribs lgm lgs cnt1 cnt2 elems) acc := by
  induction elems with
  | nil => intro cnt1 cnt2 acc; simp [fillCOO, allContribs, applyContribs]
  | cons e es ih =>
      intro cnt1 cnt2 acc
      simp only [fillCOO, allContribs, applyContribs_append]
      rw [ih, fillElemCOO_eq_applyContribs]

/-- C2: global assembly is a scatter-add.  The assembled entry at any
global coordinate `(g1, g2)` equals the sum, over all contributing
`(element, i, j)` triples mapping to that coordinate, of
`sign[e][i]*sign[e][j]*S_e[i][j]` — contributions from elements sharing
a global DOF pair are summed, never overwritten. -/
theorem genGlobalMatrix_scatter_add (lgm : ℕ → ℕ) (lgs : ℕ → ℚ)
    (elems : List LocalExp) (g1 g2 : ℕ) :
    GenGlobalMatrix lgm lgs elems (g1, g2)
      = (((allContribs lgm lgs 0 0 elems).filter
            fun t => decide (t.1 = g1 ∧ t.2.1 = g2)).map fun t => t.2.2).sum := by
  have h := applyContribs_apply (allContribs lgm lgs 0 0 elems)
    (fun _ => 0) (g1, g2)
  rw [GenGlobalMatrix, fillCOO_eq_applyContribs, h]
  simp [sumContribsAt]

theorem getValue_comm (storage : MatrixStorage) (store : ℕ → ℕ → ℚ)
    (hs : storage ≠ .eFULL) (i j : ℕ) :
    GetValue storage store i j = GetValue storage store j i := by
  cases storage <;> simp_all [GetValue, min_comm, max_comm]

/-- C6: the storage chosen for the assembled global matrix is banded
symmetric exactly when `2*(bandwidth+1)` is less than the number of free
rows and the operator is Helmholtz or Laplacian, full symmetric for
those operators otherwise, and general full storage for every other
operator kind. -/
theorem genGlobalMatrixFull_storage (mtype : MatrixType) (lgm : ℕ → ℕ)
    (lgs : ℕ → ℚ) (totDofs ndir bwidth : ℕ) (elems : List LocalExpFull) :
    ((mtype = .eHelmholtz ∨ mtype = .eLaplacian) →
      ((GenGlobalMatrixFull mtype lgm lgs totDofs ndir bwidth elems).storage
          = .ePOSITIVE_DEFINITE_SYMMETRIC_BANDED
        ↔ 2 * (bwidth + 1) < totDofs - ndir)
      ∧ (¬ 2 * (bwidth + 1) < totDofs - ndir →
          (GenGlobalMatrixFull mtype lgm lgs totDofs ndir bwidth elems).storage
            = .ePOSITIVE_DEFINITE_SYMMETRIC))
    ∧ ((mtype ≠ .eHelmholtz ∧ mtype ≠ .eLaplacian) →
        (GenGlobalMatrixFull mtype lgm lgs totDofs ndir bwidth elems).storage
          = .eFULL) := by
  show ((mtype = .eHelmholtz ∨ mtype = .eLaplacian) →
      (chooseStorage mtype bwidth (totDofs - ndir)
          = .ePOSITIVE_DEFINITE_SYMMETRIC_BANDED
        ↔ 2 * (bwidth + 1) < totDofs - ndir)
      ∧ (¬ 2 * (bwidth + 1) < totDofs - ndir →
          chooseStorage mtype bwidth (totDofs - ndir)
            = .ePOSITIVE_DEFINITE_SYMMETRIC))
    ∧ ((mtype ≠ .eHelmholtz ∧ mtype ≠ .eLaplacian) →
        chooseStorage mtype bwidth (totDofs - ndir) = .eFULL)
  constructor
  · rintro (rfl | rfl) <;>
      · by_cases hb : 2 * (bwidth + 1) < totDofs - ndir
        · exact ⟨by simp [chooseStorage, hb], fun hnb => absurd hb hnb⟩
        · exact ⟨by simp [chooseStorage, hb], fun _ => by simp [chooseStorage, hb]⟩
  · rintro ⟨h1, h2⟩
    cases mtype <;> simp_all [chooseStorage]

/-- Witness for C6: Helmholtz with a small bandwidth relative to the
free-row count yields banded symmetric storage. -/
theorem genGlobalMatrixFull_storage_witness :
    (GenGlobalMatrixFull .eHelmholtz (fun n => n) (fun _ => 1) 5 0 0
        []).storage = .ePOSITIVE_DEFINITE_SYMMETRIC_BANDED :=
  ((genGlobalMatrixFull_storage .eHelmholtz (fun n => n) (fun _ => 1)
      5 0 0 []).1 (Or.inl rfl)).1.mpr (by norm_num)

/-- C5: for the symmetric positive-definite operators (Helmholtz,
Laplacian) the assembled global free-DOF matrix is symmetric:
`Global[i][j] = Global[j][i]` for every index pair. -/
theorem genGlobalMatrixFull_symmetric (mtype : MatrixType) (lgm : ℕ → ℕ)
    (lgs : ℕ → ℚ) (totDofs ndir bwidth : ℕ) (elems : List LocalExpFull)
    (hsym : mtype = .eHelmholtz ∨ mtype = .eLaplacian) (i j : ℕ) :
    (GenGlobalMatrixFull mtype lgm lgs totDofs ndir bwidth elems).entry i j
      = (GenGlobalMatrixFull mtype lgm lgs totDofs ndir bwidth elems).entry j i := by
  apply getValue_comm
  show chooseStorage mtype bwidth (totDofs - ndir) ≠ .eFULL
  rcases hsym with rfl | rfl <;>
    · simp only [chooseStorage]
      split <;> simp

/-- Witness for C5 on a concrete one-element Helmholtz assembly. -/
theorem genGlobalMatrixFull_symmetric_witness :
    ((.eHelmholtz : MatrixType) = .eHelmholtz ∨
        (.eHelmholtz : MatrixType) = .eLaplacian) ∧
    (GenGlobalMatrixFull .eHelmholtz (fun n => n) (fun _ => 1) 3 1 0
        [⟨2, fun i j => (i : ℚ) + 2 * j⟩]).entry 0 1
      = (GenGlobalMatrixFull .eHelmholtz (fun n => n) (fun _ => 1) 3 1 0
        [⟨2, fun i j => (i : ℚ) + 2 * j⟩]).entry 1 0 :=
  ⟨Or.inl rfl,
    genGlobalMatrixFull_symmetric .eHelmholtz (fun n => n) (fun _ => 1) 3 1 0
      [⟨2, fun i j => (i : ℚ) + 2 * j⟩] (Or.inl rfl) 0 1⟩

theorem fillElemFull_congr (storage : MatrixStorage) (lgm : ℕ → ℕ)
    (lgs : ℕ → ℚ) (ndir cnt : ℕ) (e f : LocalExpFull) (store : ℕ → ℕ → ℚ)
    (hn : e.ncoeffs = f.ncoeffs)
    (hmat : ∀ i j, ndir ≤ lgm (cnt + i) → ndir ≤ lgm (cnt + j) →
      e.mat i j = f.mat i j) :
    fillElemFull storage lgm lgs ndir cnt e store
      = fillElemFull storage lgm lgs ndir cnt f store := by
  unfold fillElemFull
  rw [← hn]
  apply List.foldl_ext
  intro a i _
  by_cases h1 : ndir ≤ lgm (cnt + i)
  · simp only [if_pos h1]
    apply List.foldl_ext
    intro b j _
    by_cases h2 : ndir ≤ lgm (cnt + j)
    · simp only [if_pos h2, hmat i j h1 h2]
    · simp [h2]
  · simp [h1]

theorem fillFull_congr (storage : MatrixStorage) (lgm : ℕ → ℕ) (lgs : ℕ → ℚ)
    (ndir : ℕ) (elems : List LocalExpFull) :
    ∀ (elems' : List LocalExpFull) (cnt : ℕ) (store : ℕ → ℕ → ℚ),
      AgreesOnFree lgm ndir cnt elems elems' →
      fillFull storage lgm lgs ndir cnt elems store
        = fillFull storage lgm lgs ndir cnt elems' store := by
  induction elems with
  | nil =>
      intro elems' cnt store h
      cases elems' with
      | nil => rfl
      | cons f fs => exact absurd h (by simp [AgreesOnFree])
  | cons e es ih =>
      intro elems' cnt store h
      cases elems' with
      | nil => exact absurd h (by simp [AgreesOnFree])
      | cons f fs =>
          obtain ⟨hn, hmat, hrest⟩ := h
          show fillFull storage lgm lgs ndir (cnt + e.ncoeffs) es
              (fillElemFull storage lgm lgs ndir cnt e store)
            = fillFull storage lgm lgs ndir (cnt + f.ncoeffs) fs
              (fillElemFull storage lgm lgs ndir cnt f store)
          rw [fillElemFull_congr storage lgm lgs ndir cnt e f store hn hmat, ← hn]
          exact ih fs (cnt + e.ncoeffs) _ hrest

/-- C4: the assembled free-DOF system has `nGlobal - nDirichlet` rows
and columns, and every local entry whose row or column maps to a global
index below `nDirichlet` is excluded: two element lists agreeing on all
entries whose row and column both map to free DOFs assemble to the same
global matrix. -/
theorem genGlobalMatrixFull_dirichlet_partition (mtype : MatrixType)
    (lgm : ℕ → ℕ) (lgs : ℕ → ℚ) (totDofs ndir bwidth : ℕ)
    (elems elems' : List LocalExpFull)
    (h : AgreesOnFree lgm ndir 0 elems elems') :
    (GenGlobalMatrixFull mtype lgm lgs totDofs ndir bwidth elems).rows
        = totDofs - ndir
    ∧ (GenGlobalMatrixFull mtype lgm lgs totDofs ndir bwidth elems).cols
        = totDofs - ndir
    ∧ GenGlobalMatrixFull mtype lgm lgs totDofs ndir bwidth elems
        = GenGlobalMatrixFull mtype lgm lgs totDofs ndir bwidth elems' := by
  refine ⟨rfl, rfl, ?_⟩
  simp only [GenGlobalMatrixFull]
  rw [fillFull_congr _ lgm lgs ndir elems elems' 0 _ h]

/-- Witness for C4: two one-element lists differing only in entries with
a Dirichlet row or column assemble identically. -/
theorem genGlobalMatrixFull_dirichlet_partition_witness :
    AgreesOnFree (fun n => n) 1 0
      [⟨2, fun i j => if 1 ≤ i ∧ 1 ≤ j then 5 else 7⟩]
      [⟨2, fun i j => if 1 ≤ i ∧ 1 ≤ j then 5 else 9⟩] ∧
    GenGlobalMatrixFull .eMass (fun n => n) (fun _ => 1) 3 1 0
        [⟨2, fun i j => if 1 ≤ i ∧ 1 ≤ j then 5 else 7⟩]
      = GenGlobalMatrixFull .eMass (fun n => n) (fun _ => 1) 3 1 0
        [⟨2, fun i j => if 1 ≤ i ∧ 1 ≤ j then 5 else 9⟩] := by
  have hA : AgreesOnFree (fun n => n) 1 0
      [⟨2, fun i j => if 1 ≤ i ∧ 1 ≤ j then 5 else 7⟩]
      [⟨2, fun i j => if 1 ≤ i ∧ 1 ≤ j then 5 else 9⟩] := by
    refine ⟨rfl, ?_, trivial⟩
    intro i j hi hj
    simp only [zero_add] at hi hj
    simp [hi, hj]
  exact ⟨hA, (genGlobalMatrixFull_dirichlet_partition .eMass (fun n => n)
    (fun _ => 1) 3 1 0 _ _ hA).2.2⟩

/-- C3: the conjugate-gradient loop exits successfully only when the
squared norm of the new residual has dropped below the (squared)
configured tolerance, and the only error it can produce is the explicit
fatal iteration-cap diagnostic — there is no silent non-convergence.
The fuel hypotheses state what the caller guarantees: the loop is
entered below the cap with enough fuel to reach it. -/
theorem cgLoop_exit_conditions {n : ℕ} (Amul : (Fin n → ℚ) → Fin n → ℚ)
    (M : Matrix (Fin n) (Fin n) ℚ) (fuel : ℕ) (s : CGState n)
    (hk : s.k < 20000) (hf : 20000 ≤ fuel + s.k) :
    (∀ o nsq, cgLoop Amul M fuel s = .ok (o, nsq) → nsq < kNekIterativeTolSq)
    ∧ (∀ msg, cgLoop Amul M fuel s = .error msg → msg = capMsg) := by
  induction fuel generalizing s with
  | zero => omega
  | succ fuel ih =>
      constructor
      · intro o nsq hok
        simp only [cgLoop] at hok
        split at hok
        · rename_i hlt
          obtain ⟨-, h2⟩ := Prod.mk.injEq .. ▸ Except.ok.inj hok
          exact h2 ▸ hlt
        · split at hok
          · rename_i hcap
            exact (ih _ hcap (show 20000 ≤ fuel + (s.k + 1) by omega)).1
              o nsq hok
          · exact absurd hok (by simp)
      · intro msg herr
        simp only [cgLoop] at herr
        split at herr
        · exact absurd herr (by simp)
        · split at herr
          · rename_i hcap
            exact (ih _ hcap (show 20000 ≤ fuel + (s.k + 1) by omega)).2
              msg herr
          · exact (Except.error.inj herr).symm

/-- Witness for C3 at a concrete one-dimensional system and the
caller's actual fuel and initial counter. -/
theorem cgLoop_exit_conditions_witness :
    ((0 : ℕ) < 20000 ∧ (20000 : ℕ) ≤ 20001 + 0) ∧
    ((∀ o nsq, cgLoop (fun v => v) (1 : Matrix (Fin 1) (Fin 1) ℚ) 20001
          ⟨fun _ => 0, fun _ => 1, fun _ => 1, fun _ => 1, 0⟩ = .ok (o, nsq) →
        nsq < kNekIterativeTolSq)
      ∧ (∀ msg, cgLoop (fun v => v) (1 : Matrix (Fin 1) (Fin 1) ℚ) 20001
          ⟨fun _ => 0, fun _ => 1, fun _ => 1, fun _ => 1, 0⟩ = .error msg →
        msg = capMsg)) :=
  ⟨⟨by norm_num, by norm_num⟩,
    cgLoop_exit_conditions (fun v => v) 1 20001
      ⟨fun _ => 0, fun _ => 1, fun _ => 1, fun _ => 1, 0⟩
      (by norm_num) (by norm_num)⟩

/-- C8: when the squared initial residual is below the zero threshold,
the solver zeroes the non-Dirichlet output and returns at once;
the result is `ok 0` for every operator `Amul`, so no matrix-vector
product and no conjugate-gradient iteration contributes to it. -/
theorem v_SolveLinearSystem_early_exit {n : ℕ}
    (Amul : (Fin n → ℚ) → Fin n → ℚ) (M : Matrix (Fin n) (Fin n) ℚ)
    (pInput pOutput : Fin n → ℚ) (h : wdot pInput pInput < kNekZeroTol) :
    v_SolveLinearSystem Amul M pInput pOutput = .ok (fun _ => 0) := by
  simp [v_SolveLinearSystem, h]

/-- Witness for C8: a zero right-hand side exits early with a zeroed
output, whatever the caller left in the output array. -/
theorem v_SolveLinearSystem_early_exit_witness :
    wdot (fun _ : Fin 1 => (0 : ℚ)) (fun _ => 0) < kNekZeroTol ∧
    v_SolveLinearSystem (fun v => v) (1 : Matrix (Fin 1) (Fin 1) ℚ)
        (fun _ => 0) (fun _ => 3) = .ok (fun _ => 0) :=
  have h : wdot (fun _ : Fin 1 => (0 : ℚ)) (fun _ => 0) < kNekZeroTol := by
    norm_num [wdot, kNekZeroTol]
  ⟨h, v_SolveLinearSystem_early_exit (fun v => v) 1 (fun _ => 0) (fun _ => 3) h⟩

theorem cgLoop_out_shift {n : ℕ} (Amul : (Fin n → ℚ) → Fin n → ℚ)
    (M : Matrix (Fin n) (Fin n) ℚ) (fuel : ℕ) (s : CGState n)
    (v : Fin n → ℚ) :
    cgLoop Amul M fuel ⟨fun i => s.out i + v i, s.r, s.z, s.d, s.k⟩
      = (cgLoop Amul M fuel s).map
          (fun res => (fun i => res.1 i + v i, res.2)) := by
  induction fuel generalizing s with
  | zero => rfl
  | succ fuel ih =>
      simp only [cgLoop]
      split
      · simp only [Except.map, Except.ok.injEq, Prod.mk.injEq]
        refine ⟨?_, trivial⟩
        funext i
        ring
      · split
        · rw [← ih]
          apply congrArg
          congr 1
          funext i
          ring
        · rfl

/-- C10: the solver never writes a zero initial guess into the output
before iterating; every iteration only accumulates `out += alpha*d`, so
the returned non-Dirichlet solution equals the caller-supplied initial
contents of the output array plus the correction computed from a zeroed
start — except on the zero-initial-residual early-exit path, where the
output is explicitly zeroed. -/
theorem v_SolveLinearSystem_initial_guess {n : ℕ}
    (Amul : (Fin n → ℚ) → Fin n → ℚ) (M : Matrix (Fin n) (Fin n) ℚ)
    (pInput pOutput : Fin n → ℚ) :
    (wdot pInput pInput < kNekZeroTol →
      v_SolveLinearSystem Amul M pInput pOutput = .ok (fun _ => 0))
    ∧ (¬ wdot pInput pInput < kNekZeroTol →
      v_SolveLinearSystem Amul M pInput pOutput
        = (v_SolveLinearSystem Amul M pInput (fun _ => 0)).map
            (fun o => fun i => o i + pOutput i)) := by
  constructor
  · intro h
    simp [v_SolveLinearSystem, h]
  · intro h
    simp only [v_SolveLinearSystem, if_neg h]
    have hshift := cgLoop_out_shift Amul M 20001
      ⟨fun _ => 0, pInput, M.mulVec pInput, M.mulVec pInput, 0⟩ pOutput
    simp only [zero_add] at hshift
    rw [hshift]
    rcases cgLoop Amul M 20001
        ⟨fun _ => 0, pInput, M.mulVec pInput, M.mulVec pInput, 0⟩ with msg | res
    · rfl
    · rfl

/-- Witness for C10 on a one-dimensional system with nonzero right-hand
side and a nonzero caller-supplied output array. -/
theorem v_SolveLinearSystem_initial_guess_witness :
    ¬ wdot (fun _ : Fin 1 => (1 : ℚ)) (fun _ => 1) < kNekZeroTol ∧
    v_SolveLinearSystem (fun v => v) (1 : Matrix (Fin 1) (Fin 1) ℚ)
        (fun _ => 1) (fun _ => 5)
      = (v_SolveLinearSystem (fun v => v) (1 : Matrix (Fin 1) (Fin 1) ℚ)
          (fun _ => 1) (fun _ => 0)).map
          (fun o => fun i => o i + (fun _ : Fin 1 => (5 : ℚ)) i) :=
  have h : ¬ wdot (fun _ : Fin 1 => (1 : ℚ)) (fun _ => 1) < kNekZeroTol := by
    norm_num [wdot, kNekZeroTol]
  ⟨h, (v_SolveLinearSystem_initial_guess (fun v => v) 1
        (fun _ => 1) (fun _ => 5)).2 h⟩

/-- C7: the coupled velocity-pressure solver folds exactly one pressure
mode per element and per local z-plane into the boundary block before
elimination: `nsize_bndry_p1[n] = nsize_bndry[n] + nz_loc` and
`nsize_p_m1[n] = nsize_p[n] - nz_loc` (as integers; the pressure space
has at least one mode per element, so the unsigned arithmetic is
exact). -/
theorem setUpCoupledMatrix_block_sizes (nvel HomogeneousMode : ℕ)
    (singleMode : Bool) (numBndryCoeffs numCoeffs numCoeffsP : ℕ → ℕ)
    (n : ℕ) (hp : 1 ≤ numCoeffsP n) :
    ((SetUpCoupledMatrixSizes nvel (nzLoc HomogeneousMode singleMode)
        numBndryCoeffs numCoeffs numCoeffsP).nsize_bndry_p1 n : ℤ)
      = ((SetUpCoupledMatrixSizes nvel (nzLoc HomogeneousMode singleMode)
          numBndryCoeffs numCoeffs numCoeffsP).nsize_bndry n : ℤ)
        + (nzLoc HomogeneousMode singleMode : ℤ)
    ∧ ((SetUpCoupledMatrixSizes nvel (nzLoc HomogeneousMode singleMode)
        numBndryCoeffs numCoeffs numCoeffsP).nsize_p_m1 n : ℤ)
      = ((SetUpCoupledMatrixSizes nvel (nzLoc HomogeneousMode singleMode)
          numBndryCoeffs numCoeffs numCoeffsP).nsize_p n : ℤ)
        - (nzLoc HomogeneousMode singleMode : ℤ) := by
  constructor
  · simp only [SetUpCoupledMatrixSizes]
    push_cast
    ring
  · have hle : nzLoc HomogeneousMode singleMode
        ≤ numCoeffsP n * nzLoc HomogeneousMode singleMode := by
      calc nzLoc HomogeneousMode singleMode
          = 1 * nzLoc HomogeneousMode singleMode := (one_mul _).symm
        _ ≤ numCoeffsP n * nzLoc HomogeneousMode singleMode :=
            Nat.mul_le_mul_right _ hp
    simp only [SetUpCoupledMatrixSizes]
    rw [Nat.cast_sub hle]

/-- Witness for C7 with two velocity fields, no homogeneous mode, and a
pressure space of three modes per element. -/
theorem setUpCoupledMatrix_block_sizes_witness :
    1 ≤ (fun _ : ℕ => 3) 0 ∧
    (((SetUpCoupledMatrixSizes 2 (nzLoc 0 false)
        (fun _ => 6) (fun _ => 10) (fun _ => 3)).nsize_bndry_p1 0 : ℤ)
      = ((SetUpCoupledMatrixSizes 2 (nzLoc 0 false)
          (fun _ => 6) (fun _ => 10) (fun _ => 3)).nsize_bndry 0 : ℤ)
        + (nzLoc 0 false : ℤ)
    ∧ ((SetUpCoupledMatrixSizes 2 (nzLoc 0 false)
        (fun _ => 6) (fun _ => 10) (fun _ => 3)).nsize_p_m1 0 : ℤ)
      = ((SetUpCoupledMatrixSizes 2 (nzLoc 0 false)
          (fun _ => 6) (fun _ => 10) (fun _ => 3)).nsize_p 0 : ℤ)
        - (nzLoc 0 false : ℤ)) :=
  ⟨by norm_num,
    setUpCoupledMatrix_block_sizes 2 0 false
      (fun _ => 6) (fun _ => 10) (fun _ => 3) 0 (by norm_num)⟩

end Nektar
